import Mathlib

/-
  Verification of the file-agent repository's text-mutation engine,
  context compactor, tool dispatcher and conversation drivers.

  Strings are modelled as `List Char` (the sequence of Unicode scalar
  values of a Rust `String`).  Offsets into a string are UTF-8 BYTE
  offsets, as in the Rust source; `utf8Size` gives the byte width of a
  character.  Rust slice expressions `&s[p..]` are boundary checked: they
  abort the program when `p` is not a character boundary.  Such aborts are
  modelled by `Option`, with `none` standing for the abort.
-/

deriving instance DecidableEq for Except

namespace FileAgent

/-- Number of bytes in the UTF-8 encoding of a character
(Rust char::len_utf8). -/
def utf8Size (c : Char) : Nat :=
  if c.val < 0x80 then 1 else if c.val < 0x800 then 2
  else if c.val < 0x10000 then 3 else 4

/-- Byte length of a string modelled as a character list (Rust str::len). -/
def byteLen : List Char → Nat
  | [] => 0
  | c :: cs => utf8Size c + byteLen cs

theorem utf8Size_pos (c : Char) : 0 < utf8Size c := by
  unfold utf8Size; split
  · exact Nat.zero_lt_one
  · split
    · exact Nat.zero_lt_two
    · split <;> omega

theorem byteLen_append (a b : List Char) :
    byteLen (a ++ b) = byteLen a + byteLen b := by
  induction a with
  | nil => simp [byteLen]
  | cons c cs ih => simp [byteLen, ih]; omega

theorem byteLen_eq_zero {l : List Char} (h : byteLen l = 0) : l = [] := by
  cases l with
  | nil => rfl
  | cons c cs =>
    exfalso
    have := utf8Size_pos c
    simp [byteLen] at h
    omega

/-- Boolean prefix test on character lists. -/
def isPrefixL : List Char → List Char → Bool
  | [], _ => true
  | _ :: _, [] => false
  | a :: as, b :: bs => a == b && isPrefixL as bs

theorem isPrefixL_iff (pat s : List Char) :
    isPrefixL pat s = true ↔ ∃ t, s = pat ++ t := by
  induction pat generalizing s with
  | nil => simp [isPrefixL]
  | cons a as ih =>
    cases s with
    | nil =>
      simp [isPrefixL]
    | cons b bs =>
      simp only [isPrefixL, Bool.and_eq_true, beq_iff_eq, ih, List.cons_append,
        List.cons.injEq]
      constructor
      · rintro ⟨rfl, t, rfl⟩; exact ⟨t, rfl, rfl⟩
      · rintro ⟨t, rfl, rfl⟩; exact ⟨rfl, t, rfl⟩

/-- Rust slice expression content[pos..]: the suffix starting at byte
offset pos, or none (program abort) when pos is not a character boundary
or exceeds the byte length. -/
def dropBytes : List Char → Nat → Option (List Char)
  | s, 0 => some s
  | [], _ + 1 => none
  | c :: cs, n + 1 =>
    if utf8Size c ≤ n + 1 then dropBytes cs (n + 1 - utf8Size c) else none

/-- Rust str::find: byte offset of the first occurrence of needle. -/
def findSub : List Char → List Char → Option Nat
  | [], needle => if isPrefixL needle [] then some 0 else none
  | c :: cs, needle =>
    if isPrefixL needle (c :: cs) then some 0
    else (findSub cs needle).map (fun k => utf8Size c + k)

/-- needle occurs in content at byte offset p. -/
def occursAt (needle content : List Char) (p : Nat) : Prop :=
  ∃ pre rest, content = pre ++ needle ++ rest ∧ byteLen pre = p

/-
  The Rust loops below are while loops whose loop variable strictly
  increases by at least one byte per iteration; they are rendered as
  structural recursion on an explicit iteration budget (first argument)
  that the callers set high enough (byte length + 1) that it can never
  run out before the loop condition fails.  Running out of budget returns
  none, like a slice abort; this case is unreachable from the wrappers.
-/

/-- The inner line-counting loop of find_matches (edit.rs lines 71-83 and
multi_edit.rs lines 102-114): advance (lineNum, lineStart) over every
newline strictly before absolutePos.  none models the abort of the slice
content[lineStart..] at a non-boundary offset. -/
def countLinesAux (content : List Char) (absolutePos : Nat) :
    Nat → Nat → Nat → Option (Nat × Nat)
  | 0, _, _ => none
  | fuel + 1, lineNum, lineStart =>
    if lineStart ≤ absolutePos ∧ lineStart < byteLen content then
      match dropBytes content lineStart with
      | none => none
      | some rest =>
        match findSub rest ['\n'] with
        | some newlinePos =>
          if lineStart + newlinePos < absolutePos then
            countLinesAux content absolutePos fuel (lineNum + 1)
              (lineStart + newlinePos + 1)
          else some (lineNum, lineStart)
        | none => some (lineNum, lineStart)
    else some (lineNum, lineStart)

/-- The outer scanning loop of find_matches (edit.rs lines 66-90 and
multi_edit.rs lines 97-121).  Records (start, end, line) spans in byte
offsets and resumes one byte past each match start; none models the abort
of the slice content[currentPos..] when that advance lands inside a
multi-byte character. -/
def findMatchesAux (content search : List Char) :
    Nat → Nat → Nat → Nat → List (Nat × Nat × Nat) → Option (List (Nat × Nat × Nat))
  | 0, _, _, _, _ => none
  | fuel + 1, currentPos, lineNum, lineStart, acc =>
    if currentPos < byteLen content then
      match dropBytes content currentPos with
      | none => none
      | some rest =>
        match findSub rest search with
        | none => some acc
        | some pos =>
          match countLinesAux content (currentPos + pos) (byteLen content + 1)
              lineNum lineStart with
          | none => none
          | some (lineNum2, lineStart2) =>
            findMatchesAux content search fuel (currentPos + pos + 1) lineNum2 lineStart2
              (acc ++ [(currentPos + pos, currentPos + pos + byteLen search, lineNum2)])
    else some acc

/-- find_matches (edit.rs lines 60-93, duplicated in multi_edit.rs lines
91-124): scan the whole content from byte 0, line 1. -/
def find_matches (content search : List Char) : Option (List (Nat × Nat × Nat)) :=
  findMatchesAux content search (byteLen content + 1) 0 1 0 []

/-- Iteration core of Rust str::replacen; at least one character of s is
consumed per step, so budgets of at least s.length never run out (the
exhausted case returns s unchanged and is unreachable from the wrapper). -/
def replacenAux : Nat → List Char → List Char → List Char → Nat → List Char
  | _, s, _, _, 0 => s
  | 0, s, _, _, _ + 1 => s
  | _ + 1, [], _, _, _ + 1 => []
  | fuel + 1, c :: cs, pat, rep, n + 1 =>
    if pat ≠ [] ∧ isPrefixL pat (c :: cs) then
      rep ++ replacenAux fuel (List.drop pat.length (c :: cs)) pat rep n
    else
      c :: replacenAux fuel cs pat rep (n + 1)

/-- Rust str::replacen: replace the first n non-overlapping occurrences of
pat, scanning left to right and resuming after each replaced occurrence.
Both edit tools reject an empty old_string before calling replacen, so the
empty-pattern branch (where Rust would match at every boundary) is never
reached; this definition leaves the string unchanged there. -/
def replacen (s pat rep : List Char) (n : Nat) : List Char :=
  replacenAux s.length s pat rep n

/-- Iteration core of Rust str::replace (same budget discipline as
replacenAux). -/
def replaceAllAux : Nat → List Char → List Char → List Char → List Char
  | 0, s, _, _ => s
  | _ + 1, [], _, _ => []
  | fuel + 1, c :: cs, pat, rep =>
    if pat ≠ [] ∧ isPrefixL pat (c :: cs) then
      rep ++ replaceAllAux fuel (List.drop pat.length (c :: cs)) pat rep
    else
      c :: replaceAllAux fuel cs pat rep

/-- Rust str::replace: replace every non-overlapping occurrence of pat
(same empty-pattern caveat as replacen). -/
def replaceAll (s pat rep : List Char) : List Char :=
  replaceAllAux s.length s pat rep

/-- Parameters of the edit tool (edit.rs EditParams; file_path is handled
at the filesystem boundary and does not appear in the content-level
model). -/
structure EditParams where
  old_string : List Char
  new_string : List Char
  replace_all : Bool
deriving DecidableEq

/-- The error cases of the edit tool, in source order:
emptyOld ("old_string cannot be empty"), identical ("old_string and
new_string are identical"), notFound ("old_string not found in file"),
ambiguous ("old_string found n times ... Found at lines: l1, l2, ..."),
postNone ("No replacements were made"), postUnexpected ("Unexpected
number of replacements made"), postAllRemain ("replace_all failed: n
instances of old_string still remain"). -/
inductive EditError where
  | emptyOld
  | identical
  | notFound
  | ambiguous (count : Nat) (lines : List Nat)
  | postNone
  | postUnexpected
  | postAllRemain (count : Nat)
deriving DecidableEq

/-- validate_edit_params (edit.rs lines 28-58); the dangerous-pattern scan
only logs a warning and is omitted. -/
def validate_edit_params (p : EditParams) : Except EditError Unit :=
  if p.old_string = [] then .error .emptyOld
  else if p.old_string = p.new_string then .error .identical
  else .ok ()

/-- validate_result (edit.rs lines 122-160).  Re-scans the original and the
candidate content; the final find_matches over new_string reproduces the
warn-only check at lines 152-157, whose scan can still abort. -/
def validate_result (original result old_string new_string : List Char)
    (replace_all : Bool) : Option (Except EditError Unit) :=
  match find_matches original old_string with
  | none => none
  | some originalMatches =>
    match find_matches result old_string with
    | none => none
    | some resultMatches =>
      if replace_all then
        if resultMatches ≠ [] then
          some (.error (.postAllRemain resultMatches.length))
        else
          match find_matches result new_string with
          | none => none
          | some _ => some (.ok ())
      else
        if originalMatches.length = resultMatches.length then
          some (.error .postNone)
        else if resultMatches.length ≠ originalMatches.length - 1 then
          some (.error .postUnexpected)
        else
          match find_matches result new_string with
          | none => none
          | some _ => some (.ok ())

/-- The content-level core of EditTool::execute (edit.rs lines 199-315),
starting from the file content already read.  The returned pair is the
call outcome together with the file content on disk after the call: the
single fs::write at line 274 is the only state change and runs only in
the fully validated branch.  none models a program abort inside one of
the scans (no outcome, and also no write, since the write comes last). -/
def editExecute (fs : List Char) (p : EditParams) :
    Option (Except EditError Unit × List Char) :=
  match validate_edit_params p with
  | .error e => some (.error e, fs)
  | .ok () =>
    match find_matches fs p.old_string with
    | none => none
    | some ms =>
      if ms = [] then some (.error .notFound, fs)
      else if ¬p.replace_all ∧ ms.length > 1 then
        some (.error (.ambiguous ms.length (ms.map (fun m => m.2.2))), fs)
      else
        let newContent :=
          if p.replace_all then replaceAll fs p.old_string p.new_string
          else replacen fs p.old_string p.new_string 1
        match validate_result fs newContent p.old_string p.new_string p.replace_all with
        | none => none
        | some (.error e) => some (.error e, fs)
        | some (.ok ()) => some (.ok (), newContent)

/-- One entry of the multi_edit edits array (multi_edit.rs EditOperation). -/
structure EditOperation where
  old_string : List Char
  new_string : List Char
  replace_all : Bool
deriving DecidableEq

/-- Failure of one operation inside multi_edit (apply_single_edit,
multi_edit.rs lines 126-152): "old_string not found" or "old_string found
n times". -/
inductive SingleEditError where
  | notFound
  | ambiguous (count : Nat)
deriving DecidableEq

/-- The error cases of multi_edit in source order: validate_edits
(multi_edit.rs lines 33-89; the conflict scan only logs) and the
per-operation failure "Multi-edit failed at edit #i". -/
inductive MultiEditError where
  | noEdits
  | tooMany (n : Nat)
  | emptyOldAt (i : Nat)
  | identicalAt (i : Nat)
  | failedAt (i : Nat) (e : SingleEditError)
deriving DecidableEq

/-- The per-entry loop of validate_edits (multi_edit.rs lines 45-59),
reporting 1-based indices. -/
def validateEach : Nat → List EditOperation → Except MultiEditError Unit
  | _, [] => .ok ()
  | i, e :: rest =>
    if e.old_string = [] then .error (.emptyOldAt (i + 1))
    else if e.old_string = e.new_string then .error (.identicalAt (i + 1))
    else validateEach (i + 1) rest

/-- validate_edits (multi_edit.rs lines 33-89). -/
def validate_edits (edits : List EditOperation) : Except MultiEditError Unit :=
  if edits = [] then .error .noEdits
  else if edits.length > 50 then .error (.tooMany edits.length)
  else validateEach 0 edits

/-- apply_single_edit (multi_edit.rs lines 126-152): one operation against
the in-memory buffer; no postcondition re-scan here.  Returns the new
buffer and the number of replacements made. -/
def apply_single_edit (content : List Char) (e : EditOperation) :
    Option (Except SingleEditError (List Char × Nat)) :=
  match find_matches content e.old_string with
  | none => none
  | some ms =>
    if ms = [] then some (.error .notFound)
    else if ¬e.replace_all ∧ ms.length > 1 then
      some (.error (.ambiguous ms.length))
    else
      some (.ok
        (if e.replace_all then replaceAll content e.old_string e.new_string
         else replacen content e.old_string e.new_string 1,
         if e.replace_all then ms.length else 1))

/-- The sequential application loop of MultiEditTool::execute
(multi_edit.rs lines 274-297): each operation runs against the previous
operation's output; the first failure aborts with its 1-based index. -/
def applyEditsFrom (content : List Char) (i : Nat) :
    List EditOperation → Option (Except MultiEditError (List Char))
  | [] => some (.ok content)
  | e :: rest =>
    match apply_single_edit content e with
    | none => none
    | some (.error err) => some (.error (.failedAt (i + 1) err))
    | some (.ok (c, _)) => applyEditsFrom c (i + 1) rest

/-- The content-level core of MultiEditTool::execute (multi_edit.rs lines
242-355): validate, fold the operations over an in-memory buffer, and
only then perform the single fs::write (line 300).  The second component
is the on-disk content after the call. -/
def multiEditExecute (fs : List Char) (edits : List EditOperation) :
    Option (Except MultiEditError Unit × List Char) :=
  match validate_edits edits with
  | .error e => some (.error e, fs)
  | .ok () =>
    match applyEditsFrom fs 0 edits with
    | none => none
    | some (.error e) => some (.error e, fs)
    | some (.ok c) => some (.ok (), c)

/-- TOOL_OUTPUT_LIMIT (context_manager.rs line 7). -/
def TOOL_OUTPUT_LIMIT : Nat := 30000

/-- Rust slice expression content[..n]: the prefix of byte length n, or
none (program abort) when n is not a character boundary or exceeds the
byte length. -/
def takeBytes : List Char → Nat → Option (List Char)
  | _, 0 => some []
  | [], _ + 1 => none
  | c :: cs, n + 1 =>
    if utf8Size c ≤ n + 1 then (takeBytes cs (n + 1 - utf8Size c)).map (c :: ·)
    else none

/-- truncate_content (context_manager.rs lines 172-180): pass through at
or under 30000 bytes, otherwise slice the first 30000 bytes (Rust
&content[..TOOL_OUTPUT_LIMIT], which aborts on a non-boundary cut) and
append "... [TRUNCATED - n total chars]" where n is content.len(), the
total BYTE length. -/
def truncate_content (content : List Char) : Option (List Char) :=
  if byteLen content ≤ TOOL_OUTPUT_LIMIT then some content
  else
    match takeBytes content TOOL_OUTPUT_LIMIT with
    | none => none
    | some pre =>
      some (pre ++ ("... [TRUNCATED - " ++ toString (byteLen content)
        ++ " total chars]").toList)

/-! ## Claim C1: multi-edit atomicity -/

/-- C1.  Multi-edit atomicity: whenever MultiEditTool::execute returns an
outcome, an error outcome leaves the on-disk content byte-identical to the
pre-call content, and a success outcome writes exactly the buffer obtained
by applying every operation in memory; moreover, if the up-front
validation passes and the sequential in-memory application fails at some
operation, the call returns that error with the disk unchanged. -/
theorem multi_edit_atomic (fs : List Char) (edits : List EditOperation) :
    (∀ r fs2, multiEditExecute fs edits = some (r, fs2) →
      ((∃ e, r = .error e) → fs2 = fs) ∧
      (r = .ok () → applyEditsFrom fs 0 edits = some (.ok fs2))) ∧
    (∀ i serr, validate_edits edits = .ok () →
      applyEditsFrom fs 0 edits = some (.error (.failedAt i serr)) →
      multiEditExecute fs edits = some (.error (.failedAt i serr), fs)) := by
  constructor
  · intro r fs2 h
    unfold multiEditExecute at h
    cases hv : validate_edits edits with
    | error e =>
      rw [hv] at h
      simp only [Option.some.injEq, Prod.mk.injEq] at h
      obtain ⟨rfl, rfl⟩ := h
      exact ⟨fun _ => rfl, fun hok => by cases hok⟩
    | ok u =>
      cases u
      rw [hv] at h
      cases ha : applyEditsFrom fs 0 edits with
      | none => rw [ha] at h; cases h
      | some res =>
        rw [ha] at h
        cases res with
        | error e =>
          simp only [Option.some.injEq, Prod.mk.injEq] at h
          obtain ⟨rfl, rfl⟩ := h
          exact ⟨fun _ => rfl, fun hok => by cases hok⟩
        | ok c =>
          simp only [Option.some.injEq, Prod.mk.injEq] at h
          obtain ⟨rfl, rfl⟩ := h
          constructor
          · rintro ⟨e, he⟩; cases he
          · intro _; rfl
  · intro i serr hv ha
    unfold multiEditExecute
    rw [hv, ha]

/-- Concrete instance of C1: on file content "A", the batch
["A" -> "B", "X" -> "Y"] fails at edit #2 (not found) and the disk
content stays "A". -/
theorem multi_edit_atomic_witness :
    multiEditExecute ("A".toList)
        [⟨"A".toList, "B".toList, false⟩, ⟨"X".toList, "Y".toList, false⟩] =
      some (.error (.failedAt 2 .notFound), "A".toList) :=
  (multi_edit_atomic ("A".toList)
    [⟨"A".toList, "B".toList, false⟩, ⟨"X".toList, "Y".toList, false⟩]).2
    2 .notFound (by decide) (by decide)

/-! ## Claim C6: ambiguous-match rejection -/

/-- C6 (amended).  When the scan of the file content for old_string
completes and yields k > 1 matches, and old_string is non-empty and
differs from new_string, edit with replace_all = false fails with the
ambiguous-match error whose line list enumerates exactly the k matching
1-based line numbers, and the disk content is unchanged. -/
theorem edit_ambiguous_rejection (fs : List Char) (p : EditParams)
    (ms : List (Nat × Nat × Nat))
    (hne : p.old_string ≠ []) (hnoop : p.old_string ≠ p.new_string)
    (hra : p.replace_all = false)
    (hms : find_matches fs p.old_string = some ms) (hk : 1 < ms.length) :
    editExecute fs p =
      some (.error (.ambiguous ms.length (ms.map (fun m => m.2.2))), fs) ∧
    (ms.map (fun m => m.2.2)).length = ms.length := by
  have hmsne : ms ≠ [] := by
    intro hnil; rw [hnil] at hk; simp at hk
  refine ⟨?_, by simp⟩
  unfold editExecute validate_edit_params
  rw [if_neg hne, if_neg hnoop, hms]
  simp only [if_neg hmsne]
  rw [if_pos ⟨by simp [hra], hk⟩]

/-- The claim as frozen is false on the code: for the multi-byte content
"éé" the pattern "é" occurs twice, yet the scan aborts the program when it
resumes one byte past the first match (inside the second character), so no
ambiguous-match error is produced; and with new_string equal to
old_string ("a" twice in "aa") the call fails with the identical-strings
error instead of the ambiguous-match error. -/
theorem edit_ambiguous_cex :
    editExecute ("éé".toList) ⟨"é".toList, "x".toList, false⟩ = none ∧
    editExecute ("aa".toList) ⟨"a".toList, "a".toList, false⟩ =
      some (.error .identical, "aa".toList) := by decide

/-- Concrete instance of C6: "foo" occurs twice in "foo bar foo", both on
line 1; edit reports the ambiguous error with lines [1, 1] and leaves the
content unchanged. -/
theorem edit_ambiguous_witness :
    editExecute ("foo bar foo".toList) ⟨"foo".toList, "z".toList, false⟩ =
      some (.error (.ambiguous 2 [1, 1]), "foo bar foo".toList) := by
  have h := edit_ambiguous_rejection ("foo bar foo".toList)
    ⟨"foo".toList, "z".toList, false⟩ [(0, 3, 1), (8, 11, 1)]
    (by decide) (by decide) rfl (by decide) (by decide)
  exact h.1

/-! ## Claim C5: the flat 30000-byte hard cap -/

theorem byteLen_replicate_a (n : Nat) : byteLen (List.replicate n 'a') = n := by
  induction n with
  | zero => rfl
  | succ k ih =>
    have ha : utf8Size 'a' = 1 := by decide
    rw [List.replicate_succ]
    show utf8Size 'a' + byteLen (List.replicate k 'a') = k + 1
    rw [ha, ih]
    omega

theorem takeBytes_replicate_a (n k : Nat) (l : List Char) (h : n ≤ k) :
    takeBytes (List.replicate n 'a' ++ l) k =
      (takeBytes l (k - n)).map (List.replicate n 'a' ++ ·) := by
  induction n generalizing k with
  | zero =>
    simp only [List.replicate, List.nil_append, Nat.sub_zero]
    cases takeBytes l k <;> rfl
  | succ j ih =>
    obtain ⟨k2, rfl⟩ : ∃ k2, k = k2 + 1 := ⟨k - 1, by omega⟩
    have ha : utf8Size 'a' = 1 := by decide
    rw [List.replicate_succ, List.cons_append]
    have step : takeBytes ('a' :: (List.replicate j 'a' ++ l)) (k2 + 1)
        = (takeBytes (List.replicate j 'a' ++ l) k2).map ('a' :: ·) := by
      simp only [takeBytes, ha]
      rw [if_pos (by omega)]
      norm_num
    rw [step, ih k2 (by omega), Option.map_map]
    have harith : k2 + 1 - (j + 1) = k2 - j := by omega
    rw [harith]
    rfl

/-- 29999 copies of the one-byte character a followed by the two-byte
character é give a 30001-byte string whose byte offset 30000 falls inside
the é, so truncate_content aborts the program (Rust: slicing
&content[..30000] at a non-boundary). -/
theorem truncate_replicate_aborts :
    truncate_content (List.replicate 29999 'a' ++ ['é']) = none := by
  have h1 : byteLen (List.replicate 29999 'a' ++ ['é']) = 30001 := by
    rw [byteLen_append, byteLen_replicate_a]
    decide
  unfold truncate_content
  rw [h1]
  rw [if_neg (by norm_num [TOOL_OUTPUT_LIMIT])]
  have h2 : takeBytes (List.replicate 29999 'a' ++ ['é']) TOOL_OUTPUT_LIMIT
      = none := by
    rw [TOOL_OUTPUT_LIMIT, takeBytes_replicate_a 29999 30000 _ (by omega)]
    decide
  rw [h2]

/-- C5 evaluated at the failing input: 29999 copies of the one-byte
character a followed by the two-byte character é give a 30001-byte string,
and byte offset 30000 falls inside the é, so truncate_content aborts the
program (Rust: slicing &content[..30000] at a non-boundary) instead of
cutting safely. -/
theorem truncate_content_aborts :
    truncate_content (List.replicate 29999 'a' ++ ['é']) = none :=
  truncate_replicate_aborts

/-! ## First-occurrence lemmas for findSub and replacen -/

theorem dropBytes_zero (s : List Char) : dropBytes s 0 = some s := by
  cases s <;> rfl

theorem replacenAux_zero (fuel : Nat) (s pat rep : List Char) :
    replacenAux fuel s pat rep 0 = s := by
  cases fuel <;> cases s <;> rfl

theorem findSub_eq_some (hay needle : List Char) (k : Nat)
    (h : findSub hay needle = some k) :
    ∃ pre rest, hay = pre ++ needle ++ rest ∧ byteLen pre = k ∧
      ∀ pre2 rest2, hay = pre2 ++ needle ++ rest2 → k ≤ byteLen pre2 := by
  induction hay generalizing k with
  | nil =>
    unfold findSub at h
    by_cases hp : isPrefixL needle [] = true
    · rw [if_pos hp] at h
      obtain ⟨t, ht⟩ := (isPrefixL_iff needle []).1 hp
      obtain ⟨rfl, rfl⟩ : needle = [] ∧ t = [] := by
        cases needle with
        | nil => exact ⟨rfl, ht.symm⟩
        | cons a as => simp at ht
      cases h
      exact ⟨[], [], rfl, rfl, fun _ _ _ => Nat.zero_le _⟩
    · rw [if_neg hp] at h
      cases h
  | cons c cs ih =>
    unfold findSub at h
    by_cases hp : isPrefixL needle (c :: cs) = true
    · rw [if_pos hp] at h
      cases h
      obtain ⟨t, ht⟩ := (isPrefixL_iff needle (c :: cs)).1 hp
      refine ⟨[], t, ?_, rfl, fun _ _ _ => Nat.zero_le _⟩
      simp only [List.nil_append]
      exact ht
    · rw [if_neg hp] at h
      cases hcs : findSub cs needle with
      | none => rw [hcs] at h; cases h
      | some k2 =>
        rw [hcs] at h
        simp only [Option.map_some', Option.some.injEq] at h
        obtain ⟨pre2, rest2, hdec, hlen, hmin⟩ := ih k2 hcs
        refine ⟨c :: pre2, rest2, by simp [hdec], by simp [byteLen, hlen, h], ?_⟩
        intro pre3 rest3 heq
        cases pre3 with
        | nil =>
          exfalso
          exact hp ((isPrefixL_iff needle (c :: cs)).2 ⟨rest3, by simpa using heq⟩)
        | cons d pre3t =>
          have hd : d = c ∧ cs = pre3t ++ needle ++ rest3 := by
            have h2 := heq
            simp only [List.cons_append, List.cons.injEq] at h2
            exact ⟨h2.1.symm, h2.2⟩
          have h3 := hmin pre3t rest3 hd.2
          simp only [byteLen, hd.1]
          omega

theorem findSub_eq_none (hay needle : List Char) (h : findSub hay needle = none) :
    ∀ pre rest, hay ≠ pre ++ needle ++ rest := by
  induction hay with
  | nil =>
    unfold findSub at h
    by_cases hp : isPrefixL needle [] = true
    · rw [if_pos hp] at h; cases h
    · intro pre rest heq
      have hlen : needle.length = 0 := by
        have h2 := congrArg List.length heq
        simp at h2
        omega
      rw [List.length_eq_zero] at hlen
      subst hlen
      exact hp rfl
  | cons c cs ih =>
    unfold findSub at h
    by_cases hp : isPrefixL needle (c :: cs) = true
    · rw [if_pos hp] at h; cases h
    · rw [if_neg hp] at h
      cases hcs : findSub cs needle with
      | some k => rw [hcs] at h; cases h
      | none =>
        intro pre rest heq
        cases pre with
        | nil =>
          exact hp ((isPrefixL_iff needle (c :: cs)).2 ⟨rest, by simpa using heq⟩)
        | cons d pret =>
          have hd : cs = pret ++ needle ++ rest := by
            have h2 := heq
            simp only [List.cons_append, List.cons.injEq] at h2
            exact h2.2
          exact ih hcs pret rest hd

theorem replacenAux_first (needle rep : List Char) (hne : needle ≠ []) :
    ∀ pre rest fuel, (pre ++ needle ++ rest).length ≤ fuel →
    (∀ pre2 rest2, pre ++ needle ++ rest = pre2 ++ needle ++ rest2 →
      byteLen pre ≤ byteLen pre2) →
    replacenAux fuel (pre ++ needle ++ rest) needle rep 1 = pre ++ rep ++ rest := by
  intro pre
  induction pre with
  | nil =>
    intro rest fuel hfuel _
    obtain ⟨c, nd, rfl⟩ : ∃ c nd, needle = c :: nd := by
      cases needle with
      | nil => exact absurd rfl hne
      | cons c nd => exact ⟨c, nd, rfl⟩
    obtain ⟨f, rfl⟩ : ∃ f, fuel = f + 1 := by
      cases fuel with
      | zero => simp at hfuel
      | succ f => exact ⟨f, rfl⟩
    simp only [List.nil_append, List.cons_append]
    show replacenAux (f + 1) (c :: (nd ++ rest)) (c :: nd) rep 1 = _
    unfold replacenAux
    rw [if_pos ⟨hne, (isPrefixL_iff _ _).2 ⟨rest, by simp⟩⟩]
    have hdrop : List.drop (c :: nd).length (c :: (nd ++ rest)) = rest := by
      have h2 : c :: (nd ++ rest) = (c :: nd) ++ rest := by simp
      rw [h2, List.drop_left]
    rw [hdrop, replacenAux_zero]
  | cons c pret ih =>
    intro rest fuel hfuel hmin
    obtain ⟨f, rfl⟩ : ∃ f, fuel = f + 1 := by
      cases fuel with
      | zero => simp at hfuel
      | succ f => exact ⟨f, rfl⟩
    have hlen2 : (pret ++ needle ++ rest).length ≤ f := by
      simp only [List.cons_append, List.length_cons] at hfuel
      simpa using Nat.succ_le_succ_iff.mp hfuel
    have hmin2 : ∀ pre2 rest2, pret ++ needle ++ rest = pre2 ++ needle ++ rest2 →
        byteLen pret ≤ byteLen pre2 := by
      intro pre2 rest2 heq
      have h2 := hmin (c :: pre2) rest2 (by simp [heq])
      simp only [byteLen] at h2
      omega
    have hnp : ¬(needle ≠ [] ∧ isPrefixL needle (c :: (pret ++ needle ++ rest)) = true) := by
      rintro ⟨-, hpre⟩
      obtain ⟨t, ht⟩ := (isPrefixL_iff _ _).1 hpre
      have h2 := hmin [] t (by simpa using ht)
      have hpos := utf8Size_pos c
      simp only [byteLen] at h2
      omega
    show replacenAux (f + 1) (c :: (pret ++ needle ++ rest)) needle rep 1
      = (c :: pret) ++ rep ++ rest
    unfold replacenAux
    rw [if_neg hnp]
    simp only [Nat.zero_add]
    rw [ih rest f hlen2 hmin2]
    simp

theorem replacen_first (pre needle rest rep : List Char) (hne : needle ≠ [])
    (hmin : ∀ pre2 rest2, pre ++ needle ++ rest = pre2 ++ needle ++ rest2 →
      byteLen pre ≤ byteLen pre2) :
    replacen (pre ++ needle ++ rest) needle rep 1 = pre ++ rep ++ rest :=
  replacenAux_first needle rep hne pre rest _ (Nat.le_refl _) hmin

/-! ## Shape lemmas for find_matches -/

theorem findMatchesAux_sub (content search : List Char) :
    ∀ fuel cp ln ls acc out,
      findMatchesAux content search fuel cp ln ls acc = some out →
      ∃ tail, out = acc ++ tail := by
  intro fuel
  induction fuel with
  | zero => intro cp ln ls acc out h; cases h
  | succ f ih =>
    intro cp ln ls acc out h
    unfold findMatchesAux at h
    by_cases hcp : cp < byteLen content
    · rw [if_pos hcp] at h
      cases hdb : dropBytes content cp with
      | none => simp [hdb] at h
      | some rest =>
        simp only [hdb] at h
        cases hfs : findSub rest search with
        | none =>
          simp only [hfs] at h; cases h; exact ⟨[], by simp⟩
        | some pos =>
          simp only [hfs] at h
          cases hcl : countLinesAux content (cp + pos) (byteLen content + 1) ln ls with
          | none => simp [hcl] at h
          | some st =>
            obtain ⟨ln2, ls2⟩ := st
            simp only [hcl] at h
            obtain ⟨tail, htail⟩ := ih _ _ _ _ _ h
            exact ⟨(cp + pos, cp + pos + byteLen search, ln2) :: tail, by simp [htail]⟩
    · rw [if_neg hcp] at h
      cases h
      exact ⟨[], by simp⟩

theorem find_matches_head (content search : List Char) (m : Nat × Nat × Nat)
    (tl : List (Nat × Nat × Nat)) (h : find_matches content search = some (m :: tl)) :
    findSub content search = some m.1 ∧ m.2.1 = m.1 + byteLen search := by
  unfold find_matches findMatchesAux at h
  by_cases h0 : 0 < byteLen content
  · rw [if_pos h0] at h
    simp only [dropBytes_zero] at h
    cases hfs : findSub content search with
    | none => simp [hfs] at h
    | some pos =>
      simp only [hfs, Nat.zero_add] at h
      cases hcl : countLinesAux content pos (byteLen content + 1) 1 0 with
      | none => simp [hcl] at h
      | some st =>
        obtain ⟨ln2, ls2⟩ := st
        simp only [hcl] at h
        obtain ⟨tail, htail⟩ := findMatchesAux_sub content search _ _ _ _ _ _ h
        simp only [List.nil_append, List.cons.injEq] at htail
        obtain ⟨rfl, -⟩ := htail
        simpa using hfs
  · rw [if_neg h0] at h
    cases h

theorem find_matches_nil_no_occurrence (content search : List Char) (hs : search ≠ [])
    (h : find_matches content search = some []) :
    ∀ pre rest, content ≠ pre ++ search ++ rest := by
  unfold find_matches findMatchesAux at h
  by_cases h0 : 0 < byteLen content
  · rw [if_pos h0] at h
    simp only [dropBytes_zero] at h
    cases hfs : findSub content search with
    | none => exact findSub_eq_none content search hfs
    | some pos =>
      simp only [hfs, Nat.zero_add] at h
      cases hcl : countLinesAux content pos (byteLen content + 1) 1 0 with
      | none => simp [hcl] at h
      | some st =>
        obtain ⟨ln2, ls2⟩ := st
        simp only [hcl] at h
        obtain ⟨tail, htail⟩ := findMatchesAux_sub content search _ _ _ _ _ _ h
        cases htail
  · have hc : content = [] := byteLen_eq_zero (by omega)
    subst hc
    intro pre rest heq
    have hlen : search.length = 0 := by
      have h2 := congrArg List.length heq
      simp at h2
      omega
    rw [List.length_eq_zero] at hlen
    exact hs hlen

/-! ## Claim C2: single-edit success postcondition -/

/-- C2 (amended).  First part: when the scan finds old exactly once (at
span m), the candidate content replacen(fs, old, new, 1) scans to zero
occurrences of old, and the scan of the candidate for new completes, the
edit succeeds, writes exactly the candidate, the candidate has no
occurrence of old, and new sits at the original match byte offset m.1.
Second part: whenever the replace_all=false re-scan count check fails
(new count equal to the original count, or different from original minus
one), the call returns the corresponding postcondition error and the disk
content is unchanged. -/
theorem edit_single_success :
    (∀ fs old new m,
      old ≠ [] → old ≠ new →
      find_matches fs old = some [m] →
      find_matches (replacen fs old new 1) old = some [] →
      (∃ l, find_matches (replacen fs old new 1) new = some l) →
      editExecute fs ⟨old, new, false⟩ = some (.ok (), replacen fs old new 1) ∧
      (∀ p, ¬ occursAt old (replacen fs old new 1) p) ∧
      occursAt new (replacen fs old new 1) m.1) ∧
    (∀ fs p ms ms2,
      p.replace_all = false →
      p.old_string ≠ [] → p.old_string ≠ p.new_string →
      find_matches fs p.old_string = some ms → ms ≠ [] → ¬ 1 < ms.length →
      find_matches (replacen fs p.old_string p.new_string 1) p.old_string = some ms2 →
      (ms2.length = ms.length ∨ ms2.length ≠ ms.length - 1) →
      ∃ e, (e = EditError.postNone ∨ e = EditError.postUnexpected) ∧
        editExecute fs p = some (.error e, fs)) := by
  constructor
  · intro fs old new m hne hnoop h1 h2 h3
    obtain ⟨l, hl⟩ := h3
    have hmain : editExecute fs ⟨old, new, false⟩
        = some (.ok (), replacen fs old new 1) := by
      unfold editExecute validate_edit_params
      simp only [if_neg hne, if_neg hnoop, h1]
      rw [if_neg (by simp : ¬([m] = []))]
      rw [if_neg (by simp : ¬(¬(false : Bool) ∧ [m].length > 1))]
      simp only [Bool.false_eq_true, if_false]
      unfold validate_result
      rw [h1, h2]
      simp only [Bool.false_eq_true, if_false, List.length_cons, List.length_nil]
      rw [if_neg (by simp), if_neg (by simp), hl]
    refine ⟨hmain, ?_, ?_⟩
    · intro p hocc
      obtain ⟨pre, rest, heq, -⟩ := hocc
      exact find_matches_nil_no_occurrence _ _ hne h2 pre rest heq
    · obtain ⟨hsub, -⟩ := find_matches_head fs old m [] h1
      obtain ⟨pre, rest, hdec, hlen, hmin⟩ := findSub_eq_some fs old m.1 hsub
      rw [hdec] at hmin ⊢
      have hmin2 : ∀ pre2 rest2, pre ++ old ++ rest = pre2 ++ old ++ rest2 →
          byteLen pre ≤ byteLen pre2 := by
        intro pre2 rest2 hx
        rw [hlen]
        exact hmin pre2 rest2 hx
      rw [replacen_first pre old rest new hne hmin2]
      exact ⟨pre, rest, rfl, hlen⟩
  · intro fs p ms ms2 hra hne hnoop h1 hmsne hnot2 h2 hfail
    have hmsform : ∃ m, ms = [m] := by
      cases ms with
      | nil => exact absurd rfl hmsne
      | cons a tl =>
        cases tl with
        | nil => exact ⟨a, rfl⟩
        | cons b tl2 => exfalso; apply hnot2; simp
    obtain ⟨m, rfl⟩ := hmsform
    by_cases heq : ms2.length = 1
    · refine ⟨.postNone, Or.inl rfl, ?_⟩
      unfold editExecute validate_edit_params
      simp only [if_neg hne, if_neg hnoop, h1]
      rw [if_neg (by simp : ¬([m] = []))]
      rw [if_neg (by simp [hra] : ¬(¬p.replace_all ∧ [m].length > 1))]
      simp only [hra, Bool.false_eq_true, if_false]
      unfold validate_result
      rw [h1, h2]
      simp only [hra, Bool.false_eq_true, if_false, List.length_cons, List.length_nil]
      rw [if_pos (by omega)]
    · refine ⟨.postUnexpected, Or.inr rfl, ?_⟩
      have hfail2 : ms2.length ≠ 0 := by
        rcases hfail with hfa | hfb
        · simp at hfa; omega
        · simpa using hfb
      unfold editExecute validate_edit_params
      simp only [if_neg hne, if_neg hnoop, h1]
      rw [if_neg (by simp : ¬([m] = []))]
      rw [if_neg (by simp [hra] : ¬(¬p.replace_all ∧ [m].length > 1))]
      simp only [hra, Bool.false_eq_true, if_false]
      unfold validate_result
      rw [h1, h2]
      simp only [hra, Bool.false_eq_true, if_false, List.length_cons, List.length_nil]
      rw [if_neg (by omega), if_pos (by omega)]

/-- The claim as frozen is false on the code at two concrete inputs where
its hypotheses hold (the pattern occurs exactly once and the replacement
does not contain the pattern): editing "aab" with "ab" -> "b" produces
candidate "ab", which still contains the pattern, so the call fails the
postcondition with nothing written instead of succeeding; and editing
"xa" with "a" -> "x" succeeds with result "xx", in which the replacement
"x" occurs twice, not exactly once. -/
theorem edit_single_success_cex :
    editExecute ("aab".toList) ⟨"ab".toList, "b".toList, false⟩ =
      some (.error .postNone, "aab".toList) ∧
    editExecute ("xa".toList) ⟨"a".toList, "x".toList, false⟩ =
      some (.ok (), "xx".toList) ∧
    find_matches ("xx".toList) ("x".toList) = some [(0, 1, 1), (1, 2, 1)] := by
  refine ⟨by decide, by decide, by decide⟩

/-- Concrete instance of C2: "ell" occurs once in "hello" at byte offset
1; the candidate "hippo" contains no "ell", so the edit succeeds writing
"hippo", and "ipp" sits at byte offset 1. -/
theorem edit_single_success_witness :
    editExecute ("hello".toList) ⟨"ell".toList, "ipp".toList, false⟩ =
      some (.ok (), "hippo".toList) ∧
    occursAt ("ipp".toList) ("hippo".toList) 1 := by
  have h := edit_single_success.1 ("hello".toList) ("ell".toList) ("ipp".toList)
    (1, 4, 1) (by decide) (by decide) (by decide) (by decide)
    ⟨[(1, 4, 1)], by decide⟩
  have hrep : replacen ("hello".toList) ("ell".toList) ("ipp".toList) 1
      = "hippo".toList := by decide
  refine ⟨?_, ?_⟩
  · rw [← hrep]; exact h.1
  · have h3 := h.2.2
    rw [hrep] at h3
    exact h3

/-! ## Newline counting and decomposition lemmas (towards claim C7) -/

/-- Number of newline characters that lie wholly before byte offset p
(each 1-byte newline at start offset s is counted exactly when s < p). -/
def nlBefore : List Char → Nat → Nat
  | [], _ => 0
  | c :: cs, p =>
    if utf8Size c ≤ p then (if c = '\n' then 1 else 0) + nlBefore cs (p - utf8Size c)
    else 0

/-- A newline character starts at byte offset b of content. -/
def newlineAt (content : List Char) (b : Nat) : Prop :=
  occursAt ['\n'] content b

theorem nlBefore_zero (content : List Char) : nlBefore content 0 = 0 := by
  cases content with
  | nil => rfl
  | cons c cs =>
    unfold nlBefore
    rw [if_neg (by have := utf8Size_pos c; omega)]

theorem occursAt_lt_byteLen {needle content : List Char} {p : Nat}
    (hne : needle ≠ []) (h : occursAt needle content p) : p < byteLen content := by
  obtain ⟨pre, rest, rfl, rfl⟩ := h
  have : 0 < byteLen needle := by
    cases needle with
    | nil => exact absurd rfl hne
    | cons c cs => have := utf8Size_pos c; simp [byteLen]; omega
  rw [byteLen_append, byteLen_append]
  omega

theorem nlBefore_cons_le (c : Char) (cs : List Char) (p : Nat)
    (h : utf8Size c ≤ p) :
    nlBefore (c :: cs) p
      = (if c = '\n' then 1 else 0) + nlBefore cs (p - utf8Size c) := by
  simp only [nlBefore]
  rw [if_pos h]

theorem nlBefore_step_newline (content : List Char) (b : Nat)
    (h : newlineAt content b) :
    nlBefore content (b + 1) = nlBefore content b + 1 := by
  obtain ⟨pre, rest, rfl, rfl⟩ := h
  induction pre with
  | nil =>
    have h1 : utf8Size '\n' = 1 := by decide
    show nlBefore ('\n' :: rest) (0 + 1) = nlBefore ('\n' :: rest) 0 + 1
    rw [nlBefore_zero, nlBefore_cons_le _ _ _ (by omega), if_pos rfl]
    have e0 : 0 + 1 - utf8Size '\n' = 0 := by omega
    rw [e0, nlBefore_zero]
  | cons c pre ih =>
    have hz := utf8Size_pos c
    show nlBefore (c :: (pre ++ ['\n'] ++ rest)) (utf8Size c + byteLen pre + 1)
      = nlBefore (c :: (pre ++ ['\n'] ++ rest)) (utf8Size c + byteLen pre) + 1
    rw [nlBefore_cons_le _ _ _ (by omega), nlBefore_cons_le _ _ _ (by omega)]
    have e1 : utf8Size c + byteLen pre + 1 - utf8Size c = byteLen pre + 1 := by omega
    have e2 : utf8Size c + byteLen pre - utf8Size c = byteLen pre := by omega
    rw [e1, e2, ih]
    omega

theorem nlBefore_step_no_newline (content : List Char) (b : Nat)
    (h : ¬ newlineAt content b) :
    nlBefore content (b + 1) = nlBefore content b := by
  induction content generalizing b with
  | nil => rfl
  | cons c cs ih =>
    have hz := utf8Size_pos c
    by_cases hb : utf8Size c ≤ b
    · unfold nlBefore
      rw [if_pos (by omega), if_pos hb]
      have e1 : b + 1 - utf8Size c = (b - utf8Size c) + 1 := by omega
      rw [e1, ih (b - utf8Size c) ?hnn]
      case hnn =>
        intro hnl
        obtain ⟨pre, rest, hdec, hlen⟩ := hnl
        exact h ⟨c :: pre, rest, by simp [hdec], by simp [byteLen, hlen]; omega⟩
    · by_cases hb1 : utf8Size c ≤ b + 1
      · have hbe : b + 1 = utf8Size c := by omega
        have hcn : ¬ c = '\n' := by
          intro hceq
          subst hceq
          have h2 : utf8Size '\n' = 1 := by decide
          apply h
          refine ⟨[], cs, rfl, ?_⟩
          show (0 : Nat) = b
          omega
        rw [nlBefore_cons_le _ _ _ hb1, if_neg hcn]
        have e0 : b + 1 - utf8Size c = 0 := by omega
        rw [e0, nlBefore_zero]
        unfold nlBefore
        rw [if_neg hb]
      · unfold nlBefore
        rw [if_neg hb1, if_neg hb]

theorem nlBefore_flat (content : List Char) (a b : Nat) (hab : a ≤ b)
    (h : ∀ x, a ≤ x → x < b → ¬ newlineAt content x) :
    nlBefore content b = nlBefore content a := by
  induction b, hab using Nat.le_induction with
  | base => rfl
  | succ b hab ih =>
    rw [nlBefore_step_no_newline content b (h b hab (by omega))]
    exact ih (fun x hx1 hx2 => h x hx1 (by omega))

theorem dropBytes_decompose (content : List Char) :
    ∀ p rest, dropBytes content p = some rest →
      ∃ pre, content = pre ++ rest ∧ byteLen pre = p := by
  induction content with
  | nil =>
    intro p rest h
    cases p with
    | zero => cases h; exact ⟨[], rfl, rfl⟩
    | succ n => cases h
  | cons c cs ih =>
    intro p rest h
    cases p with
    | zero => cases h; exact ⟨[], rfl, rfl⟩
    | succ n =>
      unfold dropBytes at h
      by_cases hz : utf8Size c ≤ n + 1
      · rw [if_pos hz] at h
        obtain ⟨pre, hdec, hlen⟩ := ih (n + 1 - utf8Size c) rest h
        exact ⟨c :: pre, by simp [hdec], by simp [byteLen, hlen]; omega⟩
      · rw [if_neg hz] at h
        cases h

theorem append_nest (p1 s1 p2 s2 : List Char) (heq : p1 ++ s1 = p2 ++ s2)
    (hle : byteLen p1 ≤ byteLen p2) :
    ∃ mid, p2 = p1 ++ mid ∧ s1 = mid ++ s2 := by
  induction p1 generalizing p2 with
  | nil => exact ⟨p2, rfl, by simpa using heq⟩
  | cons a p1t ih =>
    cases p2 with
    | nil =>
      exfalso
      have := utf8Size_pos a
      simp only [byteLen] at hle
      omega
    | cons b p2t =>
      simp only [List.cons_append, List.cons.injEq] at heq
      obtain ⟨rfl, heq2⟩ := heq
      simp only [byteLen] at hle
      obtain ⟨mid, h1, h2⟩ := ih p2t heq2 (by omega)
      exact ⟨mid, by simp [h1], h2⟩

theorem occursAt_shift (preL restL needle : List Char) (q : Nat) :
    occursAt needle (preL ++ restL) (byteLen preL + q) ↔ occursAt needle restL q := by
  constructor
  · rintro ⟨pre3, rest3, heq, hlen⟩
    obtain ⟨mid, hmid1, hmid2⟩ := append_nest preL restL pre3 (needle ++ rest3)
      (by rw [heq, List.append_assoc]) (by omega)
    refine ⟨mid, rest3, by rw [hmid2, List.append_assoc], ?_⟩
    rw [hmid1, byteLen_append] at hlen
    omega
  · rintro ⟨pre2, rest2, heq, hlen⟩
    refine ⟨preL ++ pre2, rest2, by simp [heq], ?_⟩
    rw [byteLen_append, hlen]

theorem occursAt_shift_ge (preL restL needle : List Char) (x : Nat)
    (hx : byteLen preL ≤ x) :
    occursAt needle (preL ++ restL) x ↔ occursAt needle restL (x - byteLen preL) := by
  have e : x = byteLen preL + (x - byteLen preL) := by omega
  have h2 := occursAt_shift preL restL needle (x - byteLen preL)
  rw [← e] at h2
  exact h2

/-- Correctness of the line-counting loop: from a consistent state
(lineNum is one more than the newline count before lineStart), it returns
the line number of absolutePos, and a consistent state whose lineStart
does not pass absolutePos. -/
theorem countLinesAux_spec (content : List Char) (absolutePos : Nat) :
    ∀ fuel lineNum lineStart n2 s2,
      lineStart ≤ absolutePos →
      lineNum = 1 + nlBefore content lineStart →
      countLinesAux content absolutePos fuel lineNum lineStart = some (n2, s2) →
      n2 = 1 + nlBefore content s2 ∧ s2 ≤ absolutePos ∧
        nlBefore content absolutePos = nlBefore content s2 := by
  intro fuel
  induction fuel with
  | zero => intro ln ls n2 s2 _ _ h; cases h
  | succ f ih =>
    intro ln ls n2 s2 hle hinv h
    simp only [countLinesAux] at h
    by_cases hcond : ls ≤ absolutePos ∧ ls < byteLen content
    · rw [if_pos hcond] at h
      cases hdb : dropBytes content ls with
      | none => simp [hdb] at h
      | some restL =>
        simp only [hdb] at h
        obtain ⟨preL, hdecL, hlenL⟩ := dropBytes_decompose content ls restL hdb
        cases hfs : findSub restL ['\n'] with
        | none =>
          simp only [hfs, Option.some.injEq, Prod.mk.injEq] at h
          obtain ⟨rfl, rfl⟩ := h
          refine ⟨hinv, hcond.1, ?_⟩
          apply nlBefore_flat content ls absolutePos hcond.1
          intro x hx1 hx2 hnl
          simp only [newlineAt] at hnl
          rw [hdecL] at hnl
          rw [occursAt_shift_ge preL restL _ x (by omega)] at hnl
          obtain ⟨pre2, rest2, hdec2, -⟩ := hnl
          exact findSub_eq_none restL ['\n'] hfs pre2 rest2 hdec2
        | some q =>
          simp only [hfs] at h
          obtain ⟨pre2, rest2, hdec2, hlen2, hmin2⟩ :=
            findSub_eq_some restL ['\n'] q hfs
          have hnlq : newlineAt content (ls + q) := by
            show occursAt ['\n'] content (ls + q)
            rw [hdecL, occursAt_shift_ge preL restL _ (ls + q) (by omega)]
            have e : ls + q - byteLen preL = q := by omega
            rw [e]
            exact ⟨pre2, rest2, hdec2, hlen2⟩
          have hflatq : ∀ b, ls ≤ b → b ≤ ls + q →
              nlBefore content b = nlBefore content ls := by
            intro b hb1 hb2
            apply nlBefore_flat content ls b hb1
            intro x hx1 hx2 hnl
            simp only [newlineAt] at hnl
            rw [hdecL, occursAt_shift_ge preL restL _ x (by omega)] at hnl
            obtain ⟨pre3, rest3, hdec3, hlen3⟩ := hnl
            have := hmin2 pre3 rest3 hdec3
            omega
          by_cases hlt : ls + q < absolutePos
          · rw [if_pos hlt] at h
            apply ih (ln + 1) (ls + q + 1) n2 s2 (by omega) ?_ h
            have e1 : nlBefore content (ls + q + 1) = nlBefore content (ls + q) + 1 :=
              nlBefore_step_newline content (ls + q) hnlq
            have e2 : nlBefore content (ls + q) = nlBefore content ls :=
              hflatq (ls + q) (by omega) (by omega)
            omega
          · rw [if_neg hlt] at h
            simp only [Option.some.injEq, Prod.mk.injEq] at h
            obtain ⟨rfl, rfl⟩ := h
            refine ⟨hinv, hcond.1, ?_⟩
            exact hflatq absolutePos hcond.1 (by omega)
    · rw [if_neg hcond] at h
      simp only [Option.some.injEq, Prod.mk.injEq] at h
      obtain ⟨rfl, rfl⟩ := h
      have hge : byteLen content ≤ ls := by
        rcases Decidable.not_and_iff_or_not.mp hcond with hc1 | hc2
        · exact absurd hle hc1
        · omega
      refine ⟨hinv, hle, ?_⟩
      apply nlBefore_flat content ls absolutePos hle
      intro x hx1 hx2 hnl
      have := occursAt_lt_byteLen (by simp : (['\n'] : List Char) ≠ []) hnl
      omega

theorem chain_snoc (l : List (Nat × Nat × Nat)) (y : Nat × Nat × Nat)
    (hc : (l.map (fun m => m.1)).Chain' (· < ·))
    (hall : ∀ x ∈ l, x.1 < y.1) :
    ((l ++ [y]).map (fun m => m.1)).Chain' (· < ·) := by
  rw [List.map_append]
  apply List.Chain'.append hc (List.chain'_singleton _)
  intro a ha b hb
  simp only [List.map_cons, List.map_nil, List.head?_cons, Option.mem_def,
    Option.some.injEq] at hb
  subst hb
  have ha2 : a ∈ l.map (fun m => m.1) := List.mem_of_mem_getLast? ha
  obtain ⟨x, hx, rfl⟩ := List.mem_map.1 ha2
  exact hall x hx

/-- Loop invariant of the outer scan: starting from a consistent state
whose accumulator holds exactly the matches before currentPos, a
successful run ends with the accumulator holding exactly all occurrences,
each with correct end offset and line number, in strictly increasing
start order. -/
theorem findMatchesAux_spec (content search : List Char) (hs : search ≠ []) :
    ∀ fuel currentPos lineNum lineStart acc ms,
      lineStart ≤ currentPos →
      lineNum = 1 + nlBefore content lineStart →
      (∀ x ∈ acc, x.1 < currentPos) →
      ((acc.map (fun m => m.1)).Chain' (· < ·)) →
      (∀ x ∈ acc, occursAt search content x.1 ∧ x.2.1 = x.1 + byteLen search ∧
        x.2.2 = 1 + nlBefore content x.1) →
      (∀ s, s < currentPos → occursAt search content s →
        (s, s + byteLen search, 1 + nlBefore content s) ∈ acc) →
      findMatchesAux content search fuel currentPos lineNum lineStart acc = some ms →
      (∀ x ∈ ms, occursAt search content x.1 ∧ x.2.1 = x.1 + byteLen search ∧
        x.2.2 = 1 + nlBefore content x.1) ∧
      (∀ s, occursAt search content s →
        (s, s + byteLen search, 1 + nlBefore content s) ∈ ms) ∧
      ((ms.map (fun m => m.1)).Chain' (· < ·)) := by
  intro fuel
  induction fuel with
  | zero => intro cp ln ls acc ms _ _ _ _ _ _ h; cases h
  | succ f ih =>
    intro cp ln ls acc ms hls hinv hbound hchain hsound hcomp h
    simp only [findMatchesAux] at h
    by_cases hcp : cp < byteLen content
    · rw [if_pos hcp] at h
      cases hdb : dropBytes content cp with
      | none => simp [hdb] at h
      | some restC =>
        simp only [hdb] at h
        obtain ⟨preC, hdecC, hlenC⟩ := dropBytes_decompose content cp restC hdb
        cases hfs : findSub restC search with
        | none =>
          simp only [hfs, Option.some.injEq] at h
          subst h
          refine ⟨hsound, ?_, hchain⟩
          intro s hso
          by_cases hcase : s < cp
          · exact hcomp s hcase hso
          · exfalso
            have hso2 := hso
            rw [hdecC] at hso2
            rw [occursAt_shift_ge preC restC search s (by omega)] at hso2
            obtain ⟨pre2, rest2, hdec2, -⟩ := hso2
            exact findSub_eq_none restC search hfs pre2 rest2 hdec2
        | some pos =>
          simp only [hfs] at h
          obtain ⟨pre2, rest2, hdec2, hlen2, hmin2⟩ := findSub_eq_some restC search pos hfs
          cases hcl : countLinesAux content (cp + pos) (byteLen content + 1) ln ls with
          | none => simp [hcl] at h
          | some st =>
            obtain ⟨ln2, ls2⟩ := st
            simp only [hcl] at h
            obtain ⟨hln2, hls2, hflat⟩ :=
              countLinesAux_spec content (cp + pos) (byteLen content + 1) ln ls ln2 ls2
                (by omega) hinv hcl
            have habs : ln2 = 1 + nlBefore content (cp + pos) := by rw [hflat]; exact hln2
            have hoccA : occursAt search content (cp + pos) := by
              rw [hdecC, occursAt_shift_ge preC restC search (cp + pos) (by omega)]
              have e : cp + pos - byteLen preC = pos := by omega
              rw [e]
              exact ⟨pre2, rest2, hdec2, hlen2⟩
            apply ih (cp + pos + 1) ln2 ls2
              (acc ++ [(cp + pos, cp + pos + byteLen search, ln2)]) ms
              (by omega) hln2 ?hb ?hch ?hso ?hco h
            case hb =>
              intro x hx
              rcases List.mem_append.1 hx with hx1 | hx2
              · have := hbound x hx1; omega
              · simp at hx2; subst hx2; omega
            case hch =>
              apply chain_snoc _ _ hchain
              intro x hx
              have := hbound x hx
              omega
            case hso =>
              intro x hx
              rcases List.mem_append.1 hx with hx1 | hx2
              · exact hsound x hx1
              · simp at hx2; subst hx2
                exact ⟨hoccA, rfl, habs⟩
            case hco =>
              intro s hslt hso
              by_cases hcase : s < cp
              · exact List.mem_append_left _ (hcomp s hcase hso)
              · have hse : s = cp + pos := by
                  have hso2 := hso
                  rw [hdecC] at hso2
                  rw [occursAt_shift_ge preC restC search s (by omega)] at hso2
                  obtain ⟨pre3, rest3, hdec3, hlen3⟩ := hso2
                  have := hmin2 pre3 rest3 hdec3
                  omega
                subst hse
                apply List.mem_append_right
                simp [habs]
    · rw [if_neg hcp] at h
      cases h
      refine ⟨hsound, ?_, hchain⟩
      intro s hso
      have := occursAt_lt_byteLen hs hso
      exact hcomp s (by omega) hso

/-! ## Claim C7: the match-scan specification -/

/-- C7 (amended).  Whenever the scan completes (it aborts when the
one-byte resume lands inside a multi-byte character), it records exactly
ALL occurrences of the non-empty search string — including overlapping
ones, since the scan resumes one byte past each match START — in strictly
increasing start order, each span carrying end = start + byte length of
the search string and the correct 1-based line number (one more than the
number of newlines before the start offset). -/
theorem find_matches_spec (content search : List Char) (ms : List (Nat × Nat × Nat))
    (hs : search ≠ []) (h : find_matches content search = some ms) :
    (∀ p e l, (p, e, l) ∈ ms ↔
      (occursAt search content p ∧ e = p + byteLen search ∧
        l = 1 + nlBefore content p)) ∧
    ((ms.map (fun m => m.1)).Chain' (· < ·)) := by
  have hmain := findMatchesAux_spec content search hs (byteLen content + 1) 0 1 0 [] ms
    (Nat.le_refl 0)
    (by rw [nlBefore_zero])
    (by intro x hx; simp at hx)
    (by simp)
    (by intro x hx; simp at hx)
    (by intro s hlt _; omega)
    h
  obtain ⟨hsound, hcomp, hchain⟩ := hmain
  refine ⟨?_, hchain⟩
  intro p e l
  constructor
  · intro hm
    simpa using hsound (p, e, l) hm
  · rintro ⟨ho, rfl, rfl⟩
    exact hcomp p ho

/-- The claim as frozen is false on the code at two concrete inputs: in
"aaa" the scan records TWO spans for "aa" — (0,2) and (1,3), which
overlap — because it resumes one byte past the match start, whereas the
non-overlapping occurrences of "aa" in "aaa" are just the one at 0; and
on the one-character content "é" the scan finds "é" at byte 0 and then
aborts the program slicing at byte 1, inside the two-byte character,
recording nothing. -/
theorem find_matches_cex :
    find_matches ("aaa".toList) ("aa".toList) = some [(0, 2, 1), (1, 3, 1)] ∧
    find_matches ("é".toList) ("é".toList) = none := by
  refine ⟨by decide, by decide⟩

/-- Concrete instance of C7: the completed scan of "hello\nworld hello"
for "hello" certifies a true occurrence at byte 12 on line 2 (one newline
precedes offset 12). -/
theorem find_matches_spec_witness :
    occursAt ("hello".toList) ("hello\nworld hello".toList) 12 ∧
    2 = 1 + nlBefore ("hello\nworld hello".toList) 12 := by
  have h := find_matches_spec ("hello\nworld hello".toList) ("hello".toList)
    [(0, 5, 1), (12, 17, 2)] (by decide) (by decide)
  have hm := (h.1 12 17 2).1 (by decide)
  exact ⟨hm.1, hm.2.2⟩

/-! ## Tool dispatcher (claim C3) -/

/-- One tool call parsed from an engine response (claude.rs ToolCall). -/
structure ToolCall where
  name : String
  arguments : String
  tool_use_id : String
deriving DecidableEq

/-- The name-keyed tool registry (the HashMap of claude.rs) as a lookup
function; a registered tool's execute returns Ok output or Err message. -/
def ToolMap : Type := String → Option (String → Except String String)

/-- execute_single_tool_with_id (claude.rs lines 67-87): look the name up,
run the tool, and turn the outcome into (tool_use_id, name, output) with
the two sentinel payloads.  The audit write utils::store_claude_message on
the success path is modelled as always succeeding, following the spec's
audit-sink contract write(source, record) -> unit. -/
def execute_single_tool_with_id (tools : ToolMap) (call : ToolCall) :
    String × String × String :=
  match tools call.name with
  | some tool =>
    match tool call.arguments with
    | .ok result => (call.tool_use_id, call.name, result)
    | .error e => (call.tool_use_id, call.name, "Tool execution failed: " ++ e)
  | none => (call.tool_use_id, call.name, "Tool not found: " ++ call.name)

/-- execute_tools_parallel (claude.rs lines 34-64): every call is launched
and awaited; join_all returns the outcomes in the order of the futures
vector, i.e. call-issue order, and each outcome is already a non-error
tuple, so the collection loop keeps all of them in order. -/
def execute_tools_parallel (tools : ToolMap) (calls : List ToolCall) :
    List (String × String × String) :=
  calls.map (execute_single_tool_with_id tools)

/-! ## Conversation drivers (claims C4, C8, C9, C10) -/

/-- One content block of an engine response: a text block, or a tool_use
block with correlation id, capability name and argument payload.  raw is
the serialized input (input.to_string()) that the file agent hands to its
tools; taskField is the input's "task" string field that the orchestrator
extracts, when present. -/
inductive Block where
  | text (s : String)
  | toolUse (id name raw : String) (taskField : Option String)
deriving DecidableEq

/-- Tool-call extraction of the file agent (claude.rs lines 177-200):
tool_use blocks in emitted order. -/
def extractToolCalls : List Block → List ToolCall
  | [] => []
  | .toolUse id name raw _ :: bs => ⟨name, raw, id⟩ :: extractToolCalls bs
  | .text _ :: bs => extractToolCalls bs

/-- Text extraction of the file agent (claude.rs lines 178 and 194-198):
text_response starts empty and every text block overwrites it, so the
last text block wins. -/
def extractText (bs : List Block) : String :=
  bs.foldl (fun acc b => match b with | .text s => s | _ => acc) ""

/-- Content of one conversation message: the seeded task, an assistant
message holding response blocks verbatim, or a tool_result block. -/
inductive MsgContent where
  | plain (s : String)
  | blocks (bs : List Block)
  | toolResult (id : String) (content : List Char)
deriving DecidableEq

/-- One message of the growing conversation. -/
structure Msg where
  role : String
  content : MsgContent
deriving DecidableEq

/-- The round ceiling of both drivers (claude.rs line 135,
orchestrator/claude.rs line 59). -/
def max_rounds : Nat := 100

/-- The per-result user messages of one file-agent round (claude.rs lines
213-222): one message per result, in result order, carrying the compacted
output passed through truncate_content and tagged by tool_use_id.  proc
stands for the per-tool-name compaction step of
ContextManager::process_results_locally (context_manager.rs lines 41-56,
name and raw output to processed output), whose four type-specific bodies
no claim depends on; none propagates a truncation abort. -/
def resultMsgs (proc : String → String → String) :
    List (String × String × String) → Option (List Msg)
  | [] => some []
  | (id, name, res) :: rest =>
    match truncate_content ((proc name res).toList) with
    | none => none
    | some c => (resultMsgs proc rest).map (fun ms => ⟨"user", .toolResult id c⟩ :: ms)

/-- The round loop of FileAgentClaude::call_claude_api (claude.rs lines
134-235) as a function of the response script: engine gives each round's
parsed content blocks, none standing for a response without a content
array.  The first argument is the number of rounds still allowed
(max_rounds minus rounds already run); the returned Nat is the number of
engine calls made.  Transport failures are out of scope; none models an
abort while building the result messages. -/
def fileLoop (engine : Nat → Option (List Block)) (tools : ToolMap)
    (proc : String → String → String) :
    Nat → Nat → List Msg → Option (String × Nat × List Msg)
  | 0, round, msgs => some ("Task completed successfully", round, msgs)
  | rem + 1, round, msgs =>
    match engine (round + 1) with
    | none => some ("Task completed successfully", round + 1, msgs)
    | some bs =>
      if extractToolCalls bs ≠ [] then
        match resultMsgs proc (execute_tools_parallel tools (extractToolCalls bs)) with
        | none => none
        | some rms =>
          fileLoop engine tools proc rem (round + 1)
            (msgs ++ ⟨"assistant", .blocks bs⟩ :: rms)
      else if extractText bs ≠ "" then some (extractText bs, round + 1, msgs)
      else some ("Task completed successfully", round + 1, msgs)

/-- FileAgentClaude::call_claude_api on a task: seed the conversation with
one user message and run up to 100 rounds. -/
def call_claude_api_file (task : String) (engine : Nat → Option (List Block))
    (tools : ToolMap) (proc : String → String → String) :
    Option (String × Nat × List Msg) :=
  fileLoop engine tools proc max_rounds 0 [⟨"user", .plain task⟩]

/-- The agent registry of the orchestrator (name to Agent::execute). -/
def AgentMap : Type := String → Option (String → Except String String)

/-- The per-call agent invocation of the orchestrator
(orchestrator/claude.rs lines 125-152): unknown agent and missing task
field become sentinel strings, and a failing agent becomes
"Agent execution failed: ...". -/
def orchRunAgent (agents : AgentMap) (name : String) (taskField : Option String) :
    String :=
  match agents name with
  | none => "Agent not found: " ++ name
  | some ag =>
    match taskField with
    | none => "No task provided to agent"
    | some t =>
      match ag t with
      | .ok r => r
      | .error e => "Agent execution failed: " ++ e

/-- The per-response block loop of the orchestrator
(orchestrator/claude.rs lines 104-180): every block is appended to
assistant_content_blocks; each tool_use runs its agent inline and pushes
one assistant message holding the accumulated block prefix plus one
tool_result user message, setting continue_conversation; each text block
overwrites last_message. -/
def orchBlocks (agents : AgentMap) :
    List Block → List Block → List Msg → String → Bool →
      List Msg × String × Bool
  | [], _, msgs, last, cont => (msgs, last, cont)
  | b :: bs, accBlocks, msgs, last, cont =>
    match b with
    | .toolUse id name _ taskField =>
      orchBlocks agents bs (accBlocks ++ [b])
        (msgs ++ [⟨"assistant", .blocks (accBlocks ++ [b])⟩,
          ⟨"user", .toolResult id (orchRunAgent agents name taskField).toList⟩])
        last true
    | .text s =>
      orchBlocks agents bs (accBlocks ++ [b]) msgs s cont

/-- The Unicode White_Space property (UAX 44), the set that Rust's
char::is_whitespace tests: U+0009..U+000D, U+0020, U+0085, U+00A0,
U+1680, U+2000..U+200A, U+2028, U+2029, U+202F, U+205F, U+3000. -/
def isRustWhitespace (c : Char) : Bool :=
  (Nat.ble 0x09 c.toNat && Nat.ble c.toNat 0x0D) || c.toNat == 0x20 ||
  c.toNat == 0x85 || c.toNat == 0xA0 || c.toNat == 0x1680 ||
  (Nat.ble 0x2000 c.toNat && Nat.ble c.toNat 0x200A) || c.toNat == 0x2028 ||
  c.toNat == 0x2029 || c.toNat == 0x202F || c.toNat == 0x205F ||
  c.toNat == 0x3000

/-- The final answer of the orchestrator (orchestrator/claude.rs lines
192-196): the generic completion string when the last message is blank,
the last message otherwise.  Rust tests last_message.trim().is_empty(),
which holds exactly when every character of the message has the Unicode
White_Space property that str::trim strips. -/
def orchFinal (last : String) : String :=
  if last.toList.all isRustWhitespace then "Task completed successfully" else last

/-- The round loop of OrchestratorClaude::call_claude_api
(orchestrator/claude.rs lines 53-197).  A response without a content
array does NOT leave this loop (the break statement sits inside the
array branch), unlike the file-agent loop. -/
def orchLoop (engine : Nat → Option (List Block)) (agents : AgentMap) :
    Nat → Nat → String → List Msg → String × Nat × List Msg
  | 0, round, last, msgs => (orchFinal last, round, msgs)
  | rem + 1, round, last, msgs =>
    match engine (round + 1) with
    | none => orchLoop engine agents rem (round + 1) last msgs
    | some bs =>
      match orchBlocks agents bs [] msgs last false with
      | (msgs2, last2, cont) =>
        if cont then orchLoop engine agents rem (round + 1) last2 msgs2
        else (orchFinal last2, round + 1, msgs2)

/-- OrchestratorClaude::call_claude_api on a task. -/
def call_claude_api_orch (task : String) (engine : Nat → Option (List Block))
    (agents : AgentMap) : String × Nat × List Msg :=
  orchLoop engine agents max_rounds 0 "" [⟨"user", .plain task⟩]

/-! ## Claim C3: dispatcher shape and failure isolation -/

/-- C3.  Dispatch returns one result per call, in call order, and the
slot of each call depends only on that call (failure isolation): a call
naming an unregistered capability yields the not-found sentinel in its
slot, and a call whose tool fails yields the execution-failed sentinel in
its slot. -/
theorem dispatch_shape (tools : ToolMap) (calls : List ToolCall) :
    (execute_tools_parallel tools calls).length = calls.length ∧
    (∀ i : Nat, (execute_tools_parallel tools calls)[i]?
        = (calls[i]?).map (execute_single_tool_with_id tools)) ∧
    (∀ call, tools call.name = none →
      execute_single_tool_with_id tools call
        = (call.tool_use_id, call.name, "Tool not found: " ++ call.name)) ∧
    (∀ call tool e, tools call.name = some tool → tool call.arguments = .error e →
      execute_single_tool_with_id tools call
        = (call.tool_use_id, call.name, "Tool execution failed: " ++ e)) := by
  refine ⟨List.length_map _ _, ?_, ?_, ?_⟩
  · intro i
    unfold execute_tools_parallel
    exact List.getElem?_map _ _ _
  · intro call hnone
    unfold execute_single_tool_with_id
    rw [hnone]
  · intro call tool e hsome herr
    unfold execute_single_tool_with_id
    simp only [hsome, herr]

/-- Concrete instance of C3: dispatching a call to an unregistered name
over an empty registry yields the not-found sentinel in its slot. -/
theorem dispatch_shape_witness :
    execute_single_tool_with_id (fun _ => none) ⟨"missing", "args", "id1"⟩
      = ("id1", "missing", "Tool not found: missing") :=
  (dispatch_shape (fun _ => none) []).2.2.1 ⟨"missing", "args", "id1"⟩ rfl

/-! ## Claim C10: empty-response termination of the file agent -/

/-- C10.  Whenever the file-agent driver still has rounds left and the
next response has neither tool-call blocks nor a non-empty text block, it
ends the task in that very round, before the ceiling, returning the
generic success string with the conversation unchanged. -/
theorem file_empty_response_ends (engine : Nat → Option (List Block))
    (tools : ToolMap) (proc : String → String → String)
    (rem round : Nat) (msgs : List Msg) (bs : List Block)
    (hrem : rem ≠ 0)
    (he : engine (round + 1) = some bs)
    (ht : extractToolCalls bs = []) (hx : extractText bs = "") :
    fileLoop engine tools proc rem round msgs
      = some ("Task completed successfully", round + 1, msgs) := by
  obtain ⟨r, rfl⟩ : ∃ r, rem = r + 1 := ⟨rem - 1, by omega⟩
  simp only [fileLoop, he, ht, hx]
  simp

/-- Concrete instance of C10: an empty content array in round 1 ends the
task at round 1 with the generic success string. -/
theorem file_empty_response_ends_witness :
    call_claude_api_file "t" (fun _ => some []) (fun _ => none) (fun _ r => r)
      = some ("Task completed successfully", 1, [⟨"user", .plain "t"⟩]) :=
  file_empty_response_ends (fun _ => some []) (fun _ => none) (fun _ r => r)
    max_rounds 0 [⟨"user", .plain "t"⟩] [] (by decide) rfl rfl rfl

/-! ## Claim C9: simultaneous text next to tool calls -/

/-- Whether a block is a text block. -/
def isTextB : Block → Bool
  | .text _ => true
  | .toolUse _ _ _ _ => false

/-- Erase the text blocks of every response that also carries tool calls
(the "simultaneous" text the file-agent driver is claimed to discard). -/
def eraseSimulText (resp : Option (List Block)) : Option (List Block) :=
  resp.map (fun bs =>
    if extractToolCalls bs ≠ [] then bs.filter (fun b => !isTextB b) else bs)

theorem extractToolCalls_filter (bs : List Block) :
    extractToolCalls (bs.filter (fun b => !isTextB b)) = extractToolCalls bs := by
  induction bs with
  | nil => rfl
  | cons b bs ih =>
    cases b with
    | text s => simpa [List.filter_cons, isTextB, extractToolCalls] using ih
    | toolUse id name raw tf =>
      simpa [List.filter_cons, isTextB, extractToolCalls] using ih

/-- C9 (amended).  The FILE-AGENT driver discards text that arrives in the
same response as tool calls: its final result and round count are
unchanged when all such simultaneous text blocks are erased from the
response script (the text is dispatched around, never returned).  The
orchestration driver does NOT share this property: see the
counterexample, where it returns the simultaneous text as the task
result. -/
theorem simultaneous_text_discarded (engine : Nat → Option (List Block))
    (tools : ToolMap) (proc : String → String → String) :
    ∀ rem round msgs1 msgs2,
      (fileLoop (fun n => eraseSimulText (engine n)) tools proc rem round msgs1).map
          (fun out => (out.1, out.2.1))
        = (fileLoop engine tools proc rem round msgs2).map
            (fun out => (out.1, out.2.1)) := by
  intro rem
  induction rem with
  | zero => intro round msgs1 msgs2; rfl
  | succ r ih =>
    intro round msgs1 msgs2
    simp only [fileLoop]
    cases he : engine (round + 1) with
    | none => simp [eraseSimulText, he]
    | some bs =>
      have hfilter := extractToolCalls_filter bs
      simp only [eraseSimulText, he, Option.map_some']
      by_cases htc : extractToolCalls bs = []
      · have hne : ¬(extractToolCalls bs ≠ []) := by simpa using htc
        rw [if_neg hne, if_neg hne, if_neg hne]
        by_cases hx : extractText bs ≠ ""
        · rw [if_pos hx, if_pos hx]; rfl
        · rw [if_neg hx, if_neg hx]; rfl
      · have htc2 : extractToolCalls bs ≠ [] := htc
        rw [if_pos htc2, if_pos (by rw [hfilter]; exact htc2), if_pos htc2, hfilter]
        cases hr : resultMsgs proc (execute_tools_parallel tools (extractToolCalls bs)) with
        | none => simp [hr]
        | some rms =>
          simp only [hr]
          exact ih (round + 1) _ _

/-- The claim as frozen ("that text is never returned as the task's
result", over both driver variants) is false for the orchestration
driver: in round 1 the engine returns a tool call together with the
trailing text "hello"; the orchestrator stores the text as last_message
while dispatching the call, and when round 2 brings an empty content
array it stops and returns "hello" as the task's result (after 2
rounds). -/
theorem simultaneous_text_retained_cex :
    (call_claude_api_orch "t"
      (fun n => if n = 1
        then some [.toolUse "i1" "ag" "args" (some "sub"), .text "hello"]
        else some [])
      (fun _ => none)).1 = "hello" ∧
    (call_claude_api_orch "t"
      (fun n => if n = 1
        then some [.toolUse "i1" "ag" "args" (some "sub"), .text "hello"]
        else some [])
      (fun _ => none)).2.1 = 2 := by
  refine ⟨by decide, by decide⟩

/-! ## Claim C4: round-ceiling termination -/

theorem resultMsgs_total (proc : String → String → String) :
    ∀ rs : List (String × String × String),
      (∀ r ∈ rs, byteLen ((proc r.2.1 r.2.2).toList) ≤ TOOL_OUTPUT_LIMIT) →
      ∃ ms, resultMsgs proc rs = some ms := by
  intro rs
  induction rs with
  | nil => intro _; exact ⟨[], rfl⟩
  | cons r rest ih =>
    intro h
    obtain ⟨id, name, res⟩ := r
    obtain ⟨ms, hms⟩ := ih (fun x hx => h x (List.mem_cons_of_mem _ hx))
    have hb : byteLen ((proc name res).toList) ≤ TOOL_OUTPUT_LIMIT :=
      h (id, name, res) (List.mem_cons_self _ _)
    refine ⟨⟨"user", .toolResult id ((proc name res).toList)⟩ :: ms, ?_⟩
    simp only [resultMsgs]
    unfold truncate_content
    rw [if_pos hb, hms]
    rfl

theorem orchBlocks_cont_true (agents : AgentMap) :
    ∀ blocks acc msgs last,
      (orchBlocks agents blocks acc msgs last true).2.2 = true := by
  intro blocks
  induction blocks with
  | nil => intro acc msgs last; rfl
  | cons b bs ih =>
    intro acc msgs last
    cases b with
    | toolUse id name raw tf => exact ih _ _ _
    | text s => exact ih _ _ _

theorem orchBlocks_cont_of_tools (agents : AgentMap) :
    ∀ blocks acc msgs last cont, extractToolCalls blocks ≠ [] →
      (orchBlocks agents blocks acc msgs last cont).2.2 = true := by
  intro blocks
  induction blocks with
  | nil => intro acc msgs last cont h; exact absurd rfl h
  | cons b bs ih =>
    intro acc msgs last cont h
    cases b with
    | toolUse id name raw tf => exact orchBlocks_cont_true agents bs _ _ _
    | text s =>
      apply ih
      simpa [extractToolCalls] using h

theorem orchBlocks_last_of_no_text (agents : AgentMap) :
    ∀ blocks acc msgs last cont, (∀ b ∈ blocks, ∀ s, b ≠ .text s) →
      (orchBlocks agents blocks acc msgs last cont).2.1 = last := by
  intro blocks
  induction blocks with
  | nil => intro acc msgs last cont _; rfl
  | cons b bs ih =>
    intro acc msgs last cont h
    cases b with
    | toolUse id name raw tf =>
      exact ih _ _ _ _ (fun x hx => h x (List.mem_cons_of_mem _ hx))
    | text s =>
      exact absurd rfl (h (.text s) (List.mem_cons_self _ _) s)

theorem fileLoop_ceiling (engine : Nat → Option (List Block)) (tools : ToolMap)
    (proc : String → String → String)
    (h : ∀ n, 1 ≤ n → n ≤ max_rounds →
      ∃ bs, engine n = some bs ∧ extractToolCalls bs ≠ [])
    (hproc : ∀ n bs, engine n = some bs →
      ∀ r ∈ execute_tools_parallel tools (extractToolCalls bs),
        byteLen ((proc r.2.1 r.2.2).toList) ≤ TOOL_OUTPUT_LIMIT) :
    ∀ rem round msgs, round + rem = max_rounds →
      ∃ m1, fileLoop engine tools proc rem round msgs
        = some ("Task completed successfully", max_rounds, m1) := by
  intro rem
  induction rem with
  | zero =>
    intro round msgs hr
    refine ⟨msgs, ?_⟩
    simp only [fileLoop]
    rw [show round = max_rounds by omega]
  | succ r ih =>
    intro round msgs hr
    obtain ⟨bs, hbs, htc⟩ := h (round + 1) (by omega) (by omega)
    obtain ⟨rms, hrms⟩ := resultMsgs_total proc _ (hproc (round + 1) bs hbs)
    simp only [fileLoop, hbs]
    rw [if_pos htc]
    simp only [hrms]
    exact ih (round + 1) _ (by omega)

theorem orchLoop_ceiling (engine : Nat → Option (List Block)) (agents : AgentMap)
    (h : ∀ n, 1 ≤ n → n ≤ max_rounds → ∃ bs, engine n = some bs ∧
      extractToolCalls bs ≠ [] ∧ (∀ b ∈ bs, ∀ s, b ≠ .text s)) :
    ∀ rem round msgs, round + rem = max_rounds →
      ∃ m2, orchLoop engine agents rem round "" msgs
        = ("Task completed successfully", max_rounds, m2) := by
  intro rem
  induction rem with
  | zero =>
    intro round msgs hr
    refine ⟨msgs, ?_⟩
    simp only [orchLoop]
    rw [show round = max_rounds by omega]
    rfl
  | succ r ih =>
    intro round msgs hr
    obtain ⟨bs, hbs, htc, hnt⟩ := h (round + 1) (by omega) (by omega)
    simp only [orchLoop, hbs]
    rcases hob : orchBlocks agents bs [] msgs "" false with ⟨msgs2, last2, cont⟩
    have hcont : cont = true := by
      have h2 := orchBlocks_cont_of_tools agents bs [] msgs "" false htc
      rw [hob] at h2
      exact h2
    have hlast : last2 = "" := by
      have h2 := orchBlocks_last_of_no_text agents bs [] msgs "" false hnt
      rw [hob] at h2
      exact h2
    subst hcont hlast
    simp only [if_true]
    exact ih (round + 1) msgs2 (by omega)

/-- C4 (amended).  When the engine returns at least one tool call and no
text block in every round, the ORCHESTRATION driver stops after exactly
the round ceiling of 100 engine calls and reports the generic completion
string "Task completed successfully" (no text was ever seen); the
FILE-AGENT driver does the same provided the compaction of every produced
tool result stays within the 30000-byte flat cap — without that side
condition its message building can abort the task mid-round through the
unchecked cap slice (the C5 defect), see the counterexample. -/
theorem round_ceiling_termination (engine : Nat → Option (List Block))
    (tools : ToolMap) (proc : String → String → String) (agents : AgentMap)
    (task : String)
    (h : ∀ n, 1 ≤ n → n ≤ max_rounds → ∃ bs, engine n = some bs ∧
      extractToolCalls bs ≠ [] ∧ (∀ b ∈ bs, ∀ s, b ≠ .text s)) :
    ((∀ n bs, engine n = some bs →
      ∀ r ∈ execute_tools_parallel tools (extractToolCalls bs),
        byteLen ((proc r.2.1 r.2.2).toList) ≤ TOOL_OUTPUT_LIMIT) →
      ∃ m1, call_claude_api_file task engine tools proc
        = some ("Task completed successfully", max_rounds, m1)) ∧
    (∃ m2, call_claude_api_orch task engine agents
      = ("Task completed successfully", max_rounds, m2)) := by
  constructor
  · intro hproc
    exact fileLoop_ceiling engine tools proc
      (fun n h1 h2 => (h n h1 h2).imp (fun bs hb => ⟨hb.1, hb.2.1⟩)) hproc
      max_rounds 0 _ (by omega)
  · exact orchLoop_ceiling engine agents h max_rounds 0 _ (by omega)

/-- If the response for the current round carries tool calls but building
the result messages aborts (a compacted result trips the unchecked cap
slice in truncate_content), the file-agent round loop aborts with it. -/
theorem fileLoop_abort (engine : Nat → Option (List Block)) (tools : ToolMap)
    (proc : String → String → String) (rem round : Nat) (msgs : List Msg)
    (bs : List Block)
    (hrem : rem ≠ 0) (he : engine (round + 1) = some bs)
    (htc : extractToolCalls bs ≠ [])
    (hr : resultMsgs proc (execute_tools_parallel tools (extractToolCalls bs))
      = none) :
    fileLoop engine tools proc rem round msgs = none := by
  obtain ⟨r, rfl⟩ : ∃ r, rem = r + 1 := ⟨rem - 1, by omega⟩
  simp only [fileLoop, he]
  rw [if_pos htc]
  simp only [hr]

/-- Building result messages aborts as soon as one compacted result trips
the unchecked cap slice: the head result's truncation returns none, so the
whole list of result messages is none. -/
theorem resultMsgs_abort (proc : String → String → String)
    (id name res : String) (rest : List (String × String × String))
    (h : truncate_content ((proc name res).toList) = none) :
    resultMsgs proc ((id, name, res) :: rest) = none := by
  simp only [resultMsgs, h]

/-- The claim as frozen is false on the code: this engine returns one
tool call and no text in every round, yet the file-agent driver never
reaches the round ceiling — the tool's 30001-byte output (29999 one-byte
characters then a two-byte é) passes through truncate_content while the
round-1 result message is built, the unchecked slice at byte 30000 lands
inside the é, and the task aborts in round 1 instead of terminating after
100 rounds with the generic completion string. -/
theorem round_ceiling_termination_cex :
    call_claude_api_file "t" (fun _ => some [.toolUse "i" "big" "args" none])
      (fun _ => some (fun _ => .ok (String.mk (List.replicate 29999 'a' ++ ['é']))))
      (fun _ r => r) = none := by
  have hres : resultMsgs (fun _ r => r)
      (execute_tools_parallel
        (fun _ => some (fun _ => .ok (String.mk (List.replicate 29999 'a' ++ ['é']))))
        (extractToolCalls [.toolUse "i" "big" "args" none])) = none :=
    resultMsgs_abort _ "i" "big" _ [] truncate_replicate_aborts
  unfold call_claude_api_file
  exact fileLoop_abort _ _ _ _ _ _ [.toolUse "i" "big" "args" none]
    (by decide) rfl (by decide) hres

/-- Concrete instance of the amended C4: an engine that answers every
round with one tool call to an unregistered tool and no text drives both
loops to exactly 100 rounds and the generic completion string (the
not-found sentinel is far below the cap). -/
theorem round_ceiling_termination_witness :
    (∃ m1, call_claude_api_file "t" (fun _ => some [.toolUse "i" "x" "args" none])
      (fun _ => none) (fun _ r => r)
      = some ("Task completed successfully", max_rounds, m1)) ∧
    (∃ m2, call_claude_api_orch "t" (fun _ => some [.toolUse "i" "x" "args" none])
      (fun _ => none)
      = ("Task completed successfully", max_rounds, m2)) := by
  have hmain := round_ceiling_termination (fun _ => some [.toolUse "i" "x" "args" none])
    (fun _ => none) (fun _ r => r) (fun _ => none) "t" ?h
  case h =>
    intro n h1 h2
    refine ⟨[.toolUse "i" "x" "args" none], rfl, by decide, ?_⟩
    intro b hb s
    simp only [List.mem_singleton] at hb
    subst hb
    exact fun hx => Block.noConfusion hx
  refine ⟨hmain.1 ?hp, hmain.2⟩
  case hp =>
    intro n bs hbs r hr
    cases hbs
    simp only [execute_tools_parallel, extractToolCalls, List.map] at hr
    simp at hr
    subst hr
    decide

/-! ## Claim C8: driver-variant comparison -/

theorem orchBlocks_no_tools (agents : AgentMap) :
    ∀ blocks acc msgs last cont, extractToolCalls blocks = [] →
      orchBlocks agents blocks acc msgs last cont
        = (msgs,
           blocks.foldl (fun acc b => match b with | .text s => s | _ => acc) last,
           cont) := by
  intro blocks
  induction blocks with
  | nil => intro acc msgs last cont _; rfl
  | cons b bs ih =>
    intro acc msgs last cont h
    cases b with
    | toolUse id name raw tf => simp [extractToolCalls] at h
    | text s =>
      simp only [orchBlocks]
      rw [ih _ _ _ _ (by simpa [extractToolCalls] using h)]
      rfl

/-- Helper for the C8 equivalence: the shared state machine of the two
drivers on the restricted scripts (every response present, at most one
tool call, no simultaneous text, and no whitespace-only non-empty text),
by joint induction over the remaining rounds, with the orchestrator's
last seen text invariantly blank. -/
theorem driverEquivAux (engine : Nat → Option (List Block)) (tools : ToolMap)
    (agents : AgentMap) (proc : String → String → String)
    (hresp : ∀ n, 1 ≤ n → n ≤ max_rounds → ∃ bs, engine n = some bs)
    (h2 : ∀ n bs, engine n = some bs → extractToolCalls bs ≠ [] →
      ∀ b ∈ bs, ∀ s, b ≠ .text s)
    (h3 : ∀ n bs, engine n = some bs → extractText bs = "" ∨
      ((extractText bs).toList.all isRustWhitespace) = false)
    (hproc : ∀ n bs, engine n = some bs →
      ∀ r ∈ execute_tools_parallel tools (extractToolCalls bs),
        byteLen ((proc r.2.1 r.2.2).toList) ≤ TOOL_OUTPUT_LIMIT) :
    ∀ rem round msgs1 msgs2, round + rem = max_rounds →
      ∃ res rounds m1 m2,
        fileLoop engine tools proc rem round msgs1 = some (res, rounds, m1) ∧
        orchLoop engine agents rem round "" msgs2 = (res, rounds, m2) := by
  intro rem
  induction rem with
  | zero =>
    intro round msgs1 msgs2 hr
    refine ⟨"Task completed successfully", round, msgs1, msgs2, rfl, ?_⟩
    simp only [orchLoop]
    rfl
  | succ r ih =>
    intro round msgs1 msgs2 hr
    obtain ⟨bs, hbs⟩ := hresp (round + 1) (by omega) (by omega)
    by_cases htc : extractToolCalls bs = []
    · have hne : ¬(extractToolCalls bs ≠ []) := by simpa using htc
      have horch : orchLoop engine agents (r + 1) round "" msgs2
          = (orchFinal (extractText bs), round + 1, msgs2) := by
        simp only [orchLoop, hbs]
        rw [orchBlocks_no_tools agents bs [] msgs2 "" false htc]
        rfl
      by_cases hx : extractText bs ≠ ""
      · refine ⟨extractText bs, round + 1, msgs1, msgs2, ?_, ?_⟩
        · simp only [fileLoop, hbs]
          rw [if_neg hne, if_pos hx]
        · rw [horch]
          rcases h3 (round + 1) bs hbs with hc | hc
          · exact absurd hc hx
          · unfold orchFinal
            rw [if_neg (by rw [hc]; simp)]
      · have hx2 : extractText bs = "" := by simpa using hx
        refine ⟨"Task completed successfully", round + 1, msgs1, msgs2, ?_, ?_⟩
        · simp only [fileLoop, hbs]
          rw [if_neg hne, if_neg hx]
        · rw [horch, hx2]
          rfl
    · obtain ⟨rms, hrms⟩ := resultMsgs_total proc _ (hproc (round + 1) bs hbs)
      rcases hob : orchBlocks agents bs [] msgs2 "" false with ⟨m2b, l2, cont⟩
      have hcont : cont = true := by
        have hq := orchBlocks_cont_of_tools agents bs [] msgs2 "" false htc
        rw [hob] at hq
        exact hq
      have hlast : l2 = "" := by
        have hq := orchBlocks_last_of_no_text agents bs [] msgs2 "" false
          (h2 (round + 1) bs hbs htc)
        rw [hob] at hq
        exact hq
      subst hcont hlast
      obtain ⟨res, rounds, m1, m2x, hf, ho⟩ :=
        ih (round + 1) (msgs1 ++ ⟨"assistant", .blocks bs⟩ :: rms) m2b (by omega)
      refine ⟨res, rounds, m1, m2x, ?_, ?_⟩
      · simp only [fileLoop, hbs]
        rw [if_pos htc]
        simp only [hrms]
        exact hf
      · simp only [orchLoop, hbs, hob, if_true]
        exact ho

/-- C8 (amended).  The two drivers terminate identically — same final
result and same number of engine calls — on scripts where every response
has a content array, responses carrying tool calls carry no text blocks,
and non-empty final text is not whitespace-only; in general their loop
shapes genuinely differ (see the counterexample: batch versus per-call
assistant messages, and retained versus discarded simultaneous text). -/
theorem driver_loop_equiv (engine : Nat → Option (List Block)) (tools : ToolMap)
    (agents : AgentMap) (proc : String → String → String) (task : String)
    (hresp : ∀ n, 1 ≤ n → n ≤ max_rounds → ∃ bs, engine n = some bs)
    (h2 : ∀ n bs, engine n = some bs → extractToolCalls bs ≠ [] →
      ∀ b ∈ bs, ∀ s, b ≠ .text s)
    (h3 : ∀ n bs, engine n = some bs → extractText bs = "" ∨
      ((extractText bs).toList.all isRustWhitespace) = false)
    (hproc : ∀ n bs, engine n = some bs →
      ∀ r ∈ execute_tools_parallel tools (extractToolCalls bs),
        byteLen ((proc r.2.1 r.2.2).toList) ≤ TOOL_OUTPUT_LIMIT) :
    ∃ res rounds m1 m2,
      call_claude_api_file task engine tools proc = some (res, rounds, m1) ∧
      call_claude_api_orch task engine agents = (res, rounds, m2) :=
  driverEquivAux engine tools agents proc hresp h2 h3 hproc
    max_rounds 0 _ _ (by omega)

/-- The claim as frozen is false on the code: on the same two-call script
(round 1: two tool calls; round 2: the text "done") both drivers return
"done" after 2 rounds, but the file-agent driver appends ONE assistant
message for the response plus two result messages (transcript length 4),
while the orchestration driver appends one assistant message PER CALL,
each holding the accumulated block prefix, interleaved with the results
(transcript length 5) — the loop shapes differ, not just the capability
type. -/
theorem driver_loop_equiv_cex :
    ((call_claude_api_file "t"
      (fun n => if n = 1
        then some [.toolUse "i1" "ag" "args" (some "s"), .toolUse "i2" "ag" "args" (some "s")]
        else some [.text "done"])
      (fun name => if name = "ag" then some (fun _ => .ok "R") else none)
      (fun _ r => r)).map (fun out => (out.1, out.2.1, out.2.2.length))
      = some ("done", 2, 4)) ∧
    ((fun out => (out.1, out.2.1, out.2.2.length)) (call_claude_api_orch "t"
      (fun n => if n = 1
        then some [.toolUse "i1" "ag" "args" (some "s"), .toolUse "i2" "ag" "args" (some "s")]
        else some [.text "done"])
      (fun name => if name = "ag" then some (fun _ => .ok "R") else none))
      = ("done", 2, 5)) := by
  refine ⟨by decide, by decide⟩

/-- Concrete instance of the amended C8: on a one-call-then-text script
both drivers give the same result after the same two rounds. -/
theorem driver_loop_equiv_witness :
    ∃ res rounds m1 m2,
      call_claude_api_file "t"
        (fun n => if n = 1 then some [.toolUse "i" "ag" "args" (some "s")]
          else some [.text "done"])
        (fun _ => none) (fun _ r => r) = some (res, rounds, m1) ∧
      call_claude_api_orch "t"
        (fun n => if n = 1 then some [.toolUse "i" "ag" "args" (some "s")]
          else some [.text "done"])
        (fun _ => none) = (res, rounds, m2) := by
  apply driver_loop_equiv
  · intro n h1 h2
    by_cases hn : n = 1 <;> simp [hn]
  · intro n bs hbs htc
    by_cases hn : n = 1
    · simp only [hn, if_pos] at hbs
      simp only [Option.some.injEq] at hbs
      subst hbs
      intro b hb s
      simp only [List.mem_singleton] at hb
      subst hb
      exact fun hx => Block.noConfusion hx
    · rw [if_neg hn] at hbs
      simp only [Option.some.injEq] at hbs
      subst hbs
      exact absurd (by decide) htc
  · intro n bs hbs
    by_cases hn : n = 1
    · rw [if_pos hn] at hbs
      simp only [Option.some.injEq] at hbs
      subst hbs
      left; decide
    · rw [if_neg hn] at hbs
      simp only [Option.some.injEq] at hbs
      subst hbs
      right; decide
  · intro n bs hbs r hr
    by_cases hn : n = 1
    · rw [if_pos hn] at hbs
      simp only [Option.some.injEq] at hbs
      subst hbs
      simp only [extractToolCalls, execute_tools_parallel, List.map,
        execute_single_tool_with_id] at hr
      simp at hr
      subst hr
      decide
    · rw [if_neg hn] at hbs
      simp only [Option.some.injEq] at hbs
      subst hbs
      simp [extractToolCalls, execute_tools_parallel] at hr

end FileAgent
